import Mathlib

/-!
Shallow embedding of `generate_catalog_index.py` (Stanley catalog index
generator).  Text is modelled as `List Char`; Python strings are translated
character by character.  Python `re` behaviour (greedy matching with
backtracking, `findall` scanning) is translated into executable functions.
The float comparison `ratio > 0.6` in `extract_title` is modelled exactly by
the integer inequality `5 * upper > 3 * max alpha 1`, which agrees with the
IEEE-double comparison for every denominator below 6e15 (the literal `0.6`
rounds below the rational 3/5, and quotients are correctly rounded).
-/

namespace Catalog

/-- Whitespace as matched by Python `\s` / `str.isspace` (ASCII whitespace
plus the Unicode whitespace code points). -/
def isPySpace (c : Char) : Bool :=
  c == ' ' || c == '\t' || c == '\n' || c == '\r'
  || decide (c.toNat = 0x0b) || decide (c.toNat = 0x0c)
  || (decide (0x1c ≤ c.toNat) && decide (c.toNat ≤ 0x1f))
  || decide (c.toNat = 0x85) || decide (c.toNat = 0xa0)
  || decide (c.toNat = 0x1680)
  || (decide (0x2000 ≤ c.toNat) && decide (c.toNat ≤ 0x200a))
  || decide (c.toNat = 0x2028) || decide (c.toNat = 0x2029)
  || decide (c.toNat = 0x202f) || decide (c.toNat = 0x205f)
  || decide (c.toNat = 0x3000)

/-- Model of `re.sub(r'\s+', ' ', text)`: every maximal run of whitespace
characters is replaced by a single space. -/
def collapseWs : List Char → List Char
  | [] => []
  | [c] => if isPySpace c then [' '] else [c]
  | c :: d :: rest =>
    if isPySpace c then
      if isPySpace d then collapseWs (d :: rest)
      else ' ' :: collapseWs (d :: rest)
    else c :: collapseWs (d :: rest)

/-- Model of `text.replace('\x0c', ' ')`. -/
def replaceFormFeed (l : List Char) : List Char :=
  l.map (fun c => if c.toNat = 0x0c then ' ' else c)

/-- Leading-whitespace removal, as in Python `str.strip`. -/
def stripLead (l : List Char) : List Char := l.dropWhile isPySpace

/-- Trailing-whitespace removal, as in Python `str.strip`. -/
def stripTrail (l : List Char) : List Char :=
  (l.reverse.dropWhile isPySpace).reverse

/-- Model of Python `str.strip()`. -/
def stripBoth (l : List Char) : List Char := stripTrail (stripLead l)

/-- `clean_text` from the source, on character lists: collapse whitespace,
replace form feeds, strip. -/
def cleanList (l : List Char) : List Char :=
  stripBoth (replaceFormFeed (collapseWs l))

/-- `clean_text(text)` from the source. -/
def clean_text (s : String) : String := ⟨cleanList s.data⟩

/-- The fixed section table `SECTION_MAPPING` from the source. -/
def SECTION_MAPPING : List (String × Int × Int) :=
  [("Fastener_Anchoring_Systems", 3, 73),
   ("Fastening_Systems", 74, 91),
   ("Material_Handling_Storage", 92, 99),
   ("Hand_Tools", 100, 119),
   ("Measuring_Marking", 120, 131),
   ("Ladders", 132, 134),
   ("Cleaning_Supplies", 135, 143),
   ("Jobsite_Supplies", 144, 171),
   ("Building_Materials", 172, 184),
   ("Adhesives_Caulks", 185, 188),
   ("Power_Tools_Equipment_Accessories", 189, 246),
   ("Safety_Equipment_Supplies", 247, 298)]

/-- `section_name.replace("_", " ")` from the source. -/
def displayName (s : String) : String :=
  ⟨s.data.map (fun c => if c = '_' then ' ' else c)⟩

/-- The page-range bucket `f"Pages {lo}–{hi}"`; Python `//` is floor
division, hence `Int.fdiv`. -/
def pageRangeGroup (p : Int) : String :=
  "Pages " ++ toString (p.fdiv 10 * 10) ++ "–" ++ toString (p.fdiv 10 * 10 + 9)

/-- `get_section_info(page_num)` from the source: first matching range of
the ordered table wins; sentinel pair otherwise. -/
def get_section_info (p : Int) : String × String :=
  match SECTION_MAPPING.find? (fun r => decide (r.2.1 ≤ p) && decide (p ≤ r.2.2)) with
  | some r => (displayName r.1, pageRangeGroup p)
  | none => ("Unknown", "Unknown")

/-- Python `text.split('\n')` (empty input gives one empty line). -/
def splitLines : List Char → List (List Char)
  | [] => [[]]
  | c :: rest =>
    if c = '\n' then [] :: splitLines rest
    else
      match splitLines rest with
      | [] => [[c]]
      | h :: t => (c :: h) :: t

/-- The line list built by `extract_title`:
`[line.strip() for line in text.split('\n') if line.strip()]`. -/
def linesOf (t : List Char) : List (List Char) :=
  ((splitLines t).map stripBoth).filter (fun l => !l.isEmpty)

/-- Python substring test `needle in hay`. -/
def containsSub (needle : List Char) : List Char → Bool
  | [] => needle.isEmpty
  | c :: rest => needle.isPrefixOf (c :: rest) || containsSub needle rest

/-- Python `str.upper()` (ASCII, as in the source's data). -/
def toUpperList (l : List Char) : List Char := l.map Char.toUpper

/-- Python `str.lower()` (ASCII, as in the source's data). -/
def toLowerList (l : List Char) : List Char := l.map Char.toLower

/-- The header markers skipped by `extract_title`. -/
def titleSkipMarkers : List (List Char) :=
  ["CAT #".data, "PART NO".data, "SKU".data, "DESCRIPTION".data, "QTY".data,
   "BOX".data]

/-- Number of uppercase alphabetic characters of a line. -/
def upperCount (l : List Char) : Nat :=
  ((l.filter (fun c => c.isAlpha)).filter (fun c => c.isUpper)).length

/-- Number of alphabetic characters of a line. -/
def alphaCount (l : List Char) : Nat := (l.filter (fun c => c.isAlpha)).length

/-- The heading test of `extract_title`: length above 5, uppercase ratio of
the alphabetic characters above 0.6 (denominator clamped to 1), and no
table-header marker in the uppercased line. -/
def headingOk (l : List Char) : Bool :=
  decide (5 < l.length)
    && decide (3 * max (alphaCount l) 1 < 5 * upperCount l)
    && !(titleSkipMarkers.any (fun m => containsSub m (toUpperList l)))

/-- The heading candidates collected by `extract_title` from the first
30 lines. -/
def headingsOf (t : List Char) : List (List Char) :=
  ((linesOf t).take 30).filter headingOk

/-- `extract_title(text, page_num)` from the source. -/
def extract_title (t : List Char) (p : Int) : List Char :=
  match headingsOf t with
  | h :: hs =>
    let title := List.intercalate " – ".data ((h :: hs).take 2)
    if 80 < title.length then title.take 77 ++ "...".data else title
  | [] =>
    match ((linesOf t).take 20).find?
        (fun l => decide (10 < l.length) && !("CAT".data.isPrefixOf l)) with
    | some l => l.take 80
    | none => (get_section_info p).1.data ++ " – Page ".data ++ (toString p).data

/-- Normalization followed by title extraction, as composed in
`process_pdf`. -/
def titlePipeline (raw : String) (p : Int) : List Char :=
  extract_title (cleanList raw.data) p

/-- The first logical line of a raw text (up to the first newline). -/
def firstLineOf (raw : String) : List Char :=
  raw.data.takeWhile (fun c => decide (c ≠ '\n'))

/-- The noun alternatives ending pattern (a) of `extract_products`, in the
order they appear in the alternation. -/
def productNouns : List (List Char) :=
  ["Gun".data, "Nailer".data, "Drill".data, "Saw".data, "Tool".data,
   "Anchor".data, "Fastener".data, "Bit".data, "System".data, "Kit".data,
   "Set".data]

/-- Character class of pattern (a): `[A-Za-z0-9\s\-&/]`. -/
def inClassA (c : Char) : Bool :=
  c.isAlpha || c.isDigit || isPySpace c || c == '-' || c == '&' || c == '/'

/-- Character class of pattern (b): `[A-Z\s]`. -/
def inClassB (c : Char) : Bool := c.isUpper || isPySpace c

/-- Character class of pattern (c): `[A-Z0-9\-]`. -/
def inClassC (c : Char) : Bool := c.isUpper || c.isDigit || c == '-'

/-- Final-character class of pattern (c): `[A-Z0-9]`. -/
def inClassCend (c : Char) : Bool := c.isUpper || c.isDigit

/-- One alternation attempt of pattern (a): the first noun that matches at
this position. -/
def tryNounAt (s : List Char) : Option (List Char) :=
  productNouns.find? (fun n => n.isPrefixOf s)

/-- Greedy backtracking search of pattern (a): the one-or-more class run
consumes `k` characters, tried from the longest run down to one. -/
def bestK (rest : List Char) : Nat → Option (Nat × List Char)
  | 0 => none
  | k + 1 =>
    match tryNounAt (rest.drop (k + 1)) with
    | some n => some (k + 1, n)
    | none => bestK rest k

/-- Anchored match of pattern (a)
`[A-Z][A-Za-z0-9\s\-&/]+(?:Gun|...|Set)`: returns the matched text and the
remainder after the match. -/
def matchA : List Char → Option (List Char × List Char)
  | [] => none
  | c :: rest =>
    if c.isUpper then
      match bestK rest (rest.takeWhile inClassA).length with
      | some (k, n) => some (c :: (rest.take k ++ n), rest.drop (k + n.length))
      | none => none
    else none

/-- Anchored match of pattern (b) `[A-Z][A-Z\s]{5,}` (greedy, no tail, so
the maximal class run is the match). -/
def matchB : List Char → Option (List Char × List Char)
  | [] => none
  | c :: rest =>
    if c.isUpper then
      let run := rest.takeWhile inClassB
      if 5 ≤ run.length then some (c :: run, rest.drop run.length) else none
    else none

/-- Anchored match of pattern (c) `[A-Z0-9\-]{4,}[A-Z0-9]`: the greedy
quantifier backtracks to the last class-run position at index at least 4
holding a non-hyphen class character. -/
def matchC (l : List Char) : Option (List Char × List Char) :=
  let run := l.takeWhile inClassC
  match ((List.range run.length).filter
      (fun q => decide (4 ≤ q) && inClassCend (run.getD q ' '))).getLast? with
  | some q => some (l.take (q + 1), l.drop (q + 1))
  | none => none

/-- `re.findall` scanning: attempt an anchored match at each position, and
continue after the match on success, one character later on failure.  The
fuel argument bounds the recursion; `length + 1` is always enough since
every step consumes at least one character. -/
def scanAll (step : List Char → Option (List Char × List Char)) :
    Nat → List Char → List (List Char)
  | 0, _ => []
  | _, [] => []
  | fuel + 1, c :: rest =>
    match step (c :: rest) with
    | some (m, after) => m :: scanAll step fuel after
    | none => scanAll step fuel rest

/-- `re.findall(pattern, line)` for one of the three patterns. -/
def findallWith (step : List Char → Option (List Char × List Char))
    (l : List Char) : List (List Char) :=
  scanAll step (l.length + 1) l

/-- The header markers skipped by `extract_products` (note `SIZE`, where
`extract_title` has `BOX`). -/
def productSkipMarkers : List (List Char) :=
  ["CAT #".data, "PART NO".data, "SKU".data, "DESCRIPTION".data, "QTY".data,
   "SIZE".data]

/-- Per-match processing of `extract_products`: strip, keep when the length
is strictly between 4 and 60, collapse inner whitespace, append when not
already present. -/
def processMatch (acc : List (List Char)) (m : List Char) : List (List Char) :=
  let m1 := stripBoth m
  if 4 < m1.length ∧ m1.length < 60 then
    let m2 := collapseWs m1
    if m2 ∈ acc then acc else acc ++ [m2]
  else acc

/-- Per-line processing of `extract_products`: strip the line, skip short
and header lines, otherwise run the three patterns in order and process all
their matches. -/
def productLineStep (acc : List (List Char)) (line : List Char) :
    List (List Char) :=
  let s := stripBoth line
  if s.isEmpty || s.length < 4 then acc
  else if productSkipMarkers.any (fun mk => containsSub mk (toUpperList s)) then acc
  else
    (findallWith matchA s ++ findallWith matchB s ++ findallWith matchC s).foldl
      processMatch acc

/-- `extract_products(text)` from the source: first 50 split lines, then
the first 10 accumulated products. -/
def extract_products (t : List Char) : List (List Char) :=
  (((splitLines t).take 50).foldl productLineStep []).take 10

/-- The fixed vocabulary `common_terms` of `extract_keywords`. -/
def common_terms : List (List Char) :=
  ["drill".data, "saw".data, "nailer".data, "hammer".data, "wrench".data,
   "pliers".data, "screwdriver".data,
   "anchor".data, "fastener".data, "bolt".data, "screw".data, "nail".data,
   "pin".data, "rivet".data,
   "cordless".data, "electric".data, "pneumatic".data, "manual".data,
   "power tool".data,
   "concrete".data, "steel".data, "wood".data, "metal".data, "plastic".data,
   "safety".data, "protective".data, "gloves".data, "glasses".data,
   "mask".data,
   "measuring".data, "tape".data, "level".data, "square".data,
   "ladder".data, "scaffold".data, "platform".data,
   "cleaning".data, "supplies".data, "chemical".data,
   "storage".data, "box".data, "cabinet".data, "cart".data,
   "dewalt".data, "milwaukee".data, "hilti".data, "stanley".data,
   "red head".data]

/-- Word characters of Python `\w` (ASCII, as in the source's data). -/
def isWordChar (c : Char) : Bool := c.isAlpha || c.isDigit || c == '_'

/-- Maximal word-character runs of a text (structural recursion: a word
character either extends the run that starts at the next character or opens
a new run). -/
def wordRuns : List Char → List (List Char)
  | [] => []
  | c :: rest =>
    let r := wordRuns rest
    if isWordChar c then
      match rest with
      | [] => [[c]]
      | d :: _ =>
        if isWordChar d then
          match r with
          | [] => [[c]]
          | w :: ws => (c :: w) :: ws
        else [c] :: r
    else r

/-- Lowercase ASCII letter test, the class `[a-z]`. -/
def isLowerAlpha (c : Char) : Bool := decide ('a' ≤ c) && decide (c ≤ 'z')

/-- Model of `re.findall(r'\b[a-z]{4,}\b', l)`: a match is exactly a maximal
word-character run that consists of lowercase letters only and has length at
least 4 (the word boundaries force maximality, and any non-`[a-z]` word
character inside a run blocks every sub-run). -/
def lowerWords (l : List Char) : List (List Char) :=
  (wordRuns l).filter (fun w => decide (4 ≤ w.length) && w.all isLowerAlpha)

/-- Python `set.add`, modelled on a duplicate-free accumulation list. -/
def setAdd (acc : List (List Char)) (x : List Char) : List (List Char) :=
  if x ∈ acc then acc else acc ++ [x]

/-- The full keyword set collected by `extract_keywords` before sorting:
vocabulary terms occurring in the lowercased text, title words, and up to
three words per product. -/
def keywordCandidates (t title : List Char) (products : List (List Char)) :
    List (List Char) :=
  let textLower := toLowerList t
  let k1 := common_terms.foldl
    (fun acc term => if containsSub term textLower then setAdd acc term else acc) []
  let stopWords := ["page".data, "pages".data, "catalog".data]
  let k2 := ((lowerWords (toLowerList title)).filter
    (fun w => decide (w ∉ stopWords))).foldl setAdd k1
  products.foldl
    (fun acc pr => ((lowerWords (toLowerList pr)).take 3).foldl setAdd acc) k2

/-- Lexicographic comparison of character lists by code point, the order
used by Python `sorted` on strings. -/
def lexLe : List Char → List Char → Bool
  | [], _ => true
  | _ :: _, [] => false
  | a :: as, b :: bs => if a < b then true else if a = b then lexLe as bs else false

/-- `lexLe` as a relation, for the sorting lemmas. -/
def lexR (a b : List Char) : Prop := lexLe a b = true

instance : DecidableRel lexR := fun a b => by unfold lexR; infer_instance

/-- `extract_keywords(text, title, products)` from the source:
`sorted(list(keywords))[:15]`. -/
def extract_keywords (t title : List Char) (products : List (List Char)) :
    List (List Char) :=
  (List.insertionSort lexR (keywordCandidates t title products)).take 15

/-- `generate_summary(text, title, products)` from the source (the title
argument is unused there as well). -/
def generate_summary (t _title : List Char) (products : List (List Char)) :
    List Char :=
  let lead :=
    match products with
    | [] => []
    | _ :: _ =>
      let lst :=
        if products.length ≤ 3 then List.intercalate ", ".data products
        else List.intercalate ", ".data (products.take 3) ++ ", and ".data
          ++ (toString (products.length - 3)).data ++ " more".data
      "Features ".data ++ lst ++ ". ".data
  let tl := toLowerList t
  let contentType :=
    (if containsSub "specifications".data tl || containsSub "spec".data tl
      then ["specifications".data] else [])
    ++ (if containsSub "accessories".data tl then ["accessories".data] else [])
    ++ (if containsSub "model".data tl || containsSub "cat #".data tl
      then ["product listings".data] else [])
    ++ (if containsSub "application".data tl || containsSub "use".data tl
      then ["application details".data] else [])
  let desc :=
    match contentType with
    | [] => "product information".data
    | _ :: _ => List.intercalate " and ".data contentType
  lead ++ "This page includes ".data ++ desc ++ ".".data

/-- The per-page record built by `process_pdf` (the fields the heuristics
produce; the filename and thumbnail fields are fixed naming conventions). -/
structure CatalogEntry where
  page : Int
  sectionName : String
  rangeGroup : String
  title : List Char
  products : List (List Char)
  keywords : List (List Char)
  summary : List Char
  deriving DecidableEq, Repr

/-- `process_pdf` from the source, with the raw text supplied directly. -/
def process_pdf (raw : String) (p : Int) : CatalogEntry :=
  let t := cleanList raw.data
  let si := get_section_info p
  let title := extract_title t p
  let products := extract_products t
  { page := p
    sectionName := si.1
    rangeGroup := si.2
    title := title
    products := products
    keywords := extract_keywords t title products
    summary := generate_summary t title products }

/-- One `section_groups[entry["section"]].append(page_num)` step of `main`
(a `defaultdict` keyed by section display name). -/
def sectionGroupsStep : List (String × List Int) → String → Int →
    List (String × List Int)
  | [], name, p => [(name, [p])]
  | e :: rest, name, p =>
    if e.1 = name then (e.1, e.2 ++ [p]) :: rest
    else e :: sectionGroupsStep rest name p

/-- The section grouping accumulated over a whole run of `main`. -/
def runGroups (inputs : List (Int × String)) : List (String × List Int) :=
  inputs.foldl (fun g pr => sectionGroupsStep g (get_section_info pr.1).1 pr.1) []

/-- `section_groups.get(display_name, [])` from `main`. -/
def lookupGroups (g : List (String × List Int)) (k : String) : List Int :=
  match g.find? (fun e => decide (e.1 = k)) with
  | some e => e.2
  | none => []

/-- The finalized `section_index` built by `main`: one entry per fixed
section, with its range string and the matched pages. -/
def section_index (inputs : List (Int × String)) :
    List (String × String × List Int) :=
  SECTION_MAPPING.map (fun r =>
    (displayName r.1, toString r.2.1 ++ "–" ++ toString r.2.2,
     lookupGroups (runGroups inputs) (displayName r.1)))

/-- Shape invariant of collapsed text: every whitespace character is a
plain space, and no two adjacent characters are both whitespace. -/
def spacesOk : List Char → Bool
  | [] => true
  | [c] => !isPySpace c || c == ' '
  | c :: d :: rest =>
    (!isPySpace c || (c == ' ' && !isPySpace d)) && spacesOk (d :: rest)

/-- Head-character test used for strip identities. -/
def headNotSpace : List Char → Bool
  | [] => true
  | c :: _ => !isPySpace c

/-- Last-character test used for strip identities. -/
def lastNotSpace (l : List Char) : Bool := headNotSpace l.reverse

/-- The sample heading line of the spec's title property. -/
def hdcasPhrase : List Char := "HEAVY DUTY CONCRETE ANCHOR SYSTEM".data

/-- The tail of the collapse invariant is again invariant. -/
theorem spacesOk_tail {c : Char} {l : List Char} (h : spacesOk (c :: l) = true) :
    spacesOk l = true := by
  cases l with
  | nil => rfl
  | cons d rest =>
    simp only [spacesOk, Bool.and_eq_true] at h
    exact h.2

/-- A non-space head survives collapsing as the head. -/
theorem collapseWs_cons_of_not_space {d : Char} (rest : List Char)
    (hd : isPySpace d = false) :
    collapseWs (d :: rest) = d :: collapseWs rest := by
  cases rest with
  | nil => simp [collapseWs, hd]
  | cons e r2 => simp [collapseWs, hd]

/-- Collapsed text satisfies the shape invariant. -/
theorem spacesOk_collapseWs (l : List Char) : spacesOk (collapseWs l) = true := by
  induction l with
  | nil => rfl
  | cons c rest ih =>
    cases rest with
    | nil =>
      by_cases hc : isPySpace c <;> simp [collapseWs, spacesOk, hc]
    | cons d r2 =>
      have hspc : isPySpace ' ' = true := by decide
      by_cases hc : isPySpace c
      · by_cases hd : isPySpace d
        · have hstep : collapseWs (c :: d :: r2) = collapseWs (d :: r2) := by
            simp [collapseWs, hc, hd]
          rw [hstep]; exact ih
        · have hstep : collapseWs (c :: d :: r2) = ' ' :: collapseWs (d :: r2) := by
            simp [collapseWs, hc, hd]
          have hd2 : isPySpace d = false := by simp [hd]
          rw [hstep, collapseWs_cons_of_not_space r2 hd2]
          rw [collapseWs_cons_of_not_space r2 hd2] at ih
          simp [spacesOk, hspc, hd2, ih]
      · have hc2 : isPySpace c = false := by simp [hc]
        rw [collapseWs_cons_of_not_space (d :: r2) hc2]
        cases hrec : collapseWs (d :: r2) with
        | nil => simp [spacesOk, hc2]
        | cons x xs =>
          rw [hrec] at ih
          simp only [spacesOk, hc2, Bool.not_false, Bool.true_or,
            Bool.true_and, Bool.and_eq_true]
          exact ih

/-- Under the shape invariant every whitespace character is a space. -/
theorem spacesOk_mem {l : List Char} (h : spacesOk l = true) {c : Char}
    (hm : c ∈ l) (hs : isPySpace c = true) : c = ' ' := by
  induction l with
  | nil => cases hm
  | cons x rest ih =>
    rcases List.mem_cons.mp hm with rfl | hm2
    · cases rest with
      | nil =>
        simp only [spacesOk, Bool.or_eq_true, Bool.not_eq_true'] at h
        rcases h with h | h
        · rw [h] at hs; cases hs
        · exact eq_of_beq h
      | cons d r2 =>
        simp only [spacesOk, Bool.and_eq_true, Bool.or_eq_true,
          Bool.not_eq_true'] at h
        rcases h.1 with h1 | h1
        · rw [h1] at hs; cases hs
        · exact eq_of_beq h1.1
    · exact ih (spacesOk_tail h) hm2

/-- Form feeds are whitespace, so the invariant makes the replacement a
no-op. -/
theorem replaceFormFeed_of_spacesOk {l : List Char} (h : spacesOk l = true) :
    replaceFormFeed l = l := by
  unfold replaceFormFeed
  induction l with
  | nil => rfl
  | cons c rest ih =>
    have hc : ¬ c.toNat = 0x0c := by
      intro hff
      have hsp : isPySpace c = true := by
        simp [isPySpace, hff]
      have := spacesOk_mem h (List.mem_cons_self c rest) hsp
      rw [this] at hff
      cases hff
    simp only [List.map_cons, if_neg hc, List.cons.injEq, true_and]
    exact ih (spacesOk_tail h)

/-- Under the shape invariant, collapsing is the identity. -/
theorem collapseWs_of_spacesOk {l : List Char} (h : spacesOk l = true) :
    collapseWs l = l := by
  induction l with
  | nil => rfl
  | cons c rest ih =>
    cases rest with
    | nil =>
      by_cases hc : isPySpace c
      · have := spacesOk_mem h (List.mem_cons_self c []) (by simp [hc])
        subst this
        simp [collapseWs, hc]
      · simp [collapseWs, hc]
    | cons d r2 =>
      have h2 := h
      simp only [spacesOk, Bool.and_eq_true] at h2
      by_cases hc : isPySpace c
      · have hceq : c = ' ' :=
          spacesOk_mem h (List.mem_cons_self c (d :: r2)) (by simp [hc])
        have hd : isPySpace d = false := by
          have h1 := h2.1
          rw [hc] at h1
          simp only [Bool.not_true, Bool.false_or, Bool.and_eq_true,
            Bool.not_eq_true'] at h1
          exact h1.2
        have hstep : collapseWs (c :: d :: r2) = ' ' :: collapseWs (d :: r2) := by
          simp [collapseWs, hc, hd]
        rw [hstep, ih (spacesOk_tail h), hceq]
      · rw [collapseWs_cons_of_not_space (d :: r2) (by simp [hc]),
          ih (spacesOk_tail h)]

/-- The invariant restricts to left parts of appends. -/
theorem spacesOk_append_left {a b : List Char}
    (h : spacesOk (a ++ b) = true) : spacesOk a = true := by
  induction a with
  | nil => rfl
  | cons x xs ih =>
    cases xs with
    | nil =>
      cases b with
      | nil => simpa using h
      | cons y ys =>
        simp only [List.cons_append, List.nil_append, spacesOk,
          Bool.and_eq_true] at h
        rcases Bool.or_eq_true _ _ |>.mp h.1 with hx | hx
        · simp [spacesOk, hx]
        · simp [spacesOk, Bool.and_eq_true _ _ |>.mp hx |>.1]
    | cons y ys =>
      simp only [List.cons_append, spacesOk, Bool.and_eq_true] at h
      have htail : spacesOk (y :: ys) = true := ih h.2
      simp only [spacesOk, Bool.and_eq_true]
      exact ⟨h.1, htail⟩

/-- The invariant restricts to right parts of appends. -/
theorem spacesOk_append_right {a b : List Char}
    (h : spacesOk (a ++ b) = true) : spacesOk b = true := by
  induction a with
  | nil => simpa using h
  | cons x xs ih =>
    apply ih
    exact spacesOk_tail (by simpa using h)

/-- Splitting off the trailing whitespace of a list. -/
theorem stripTrail_append_takeWhile (l : List Char) :
    l = stripTrail l ++ (l.reverse.takeWhile isPySpace).reverse := by
  unfold stripTrail
  rw [← List.reverse_append, List.takeWhile_append_dropWhile isPySpace l.reverse,
    List.reverse_reverse]

theorem headNotSpace_stripLead (l : List Char) :
    headNotSpace (stripLead l) = true := by
  unfold stripLead
  induction l with
  | nil => rfl
  | cons c rest ih =>
    by_cases hc : isPySpace c
    · rw [List.dropWhile_cons, if_pos hc]; exact ih
    · rw [List.dropWhile_cons, if_neg hc]
      simpa [headNotSpace] using hc

theorem lastNotSpace_stripTrail (l : List Char) :
    lastNotSpace (stripTrail l) = true := by
  unfold lastNotSpace stripTrail
  rw [List.reverse_reverse]
  exact headNotSpace_stripLead l.reverse

theorem stripLead_of_head {l : List Char} (h : headNotSpace l = true) :
    stripLead l = l := by
  cases l with
  | nil => rfl
  | cons c rest =>
    simp only [headNotSpace, Bool.not_eq_true'] at h
    unfold stripLead
    rw [List.dropWhile_cons, if_neg (by simp [h])]

theorem stripTrail_of_last {l : List Char} (h : lastNotSpace l = true) :
    stripTrail l = l := by
  unfold lastNotSpace at h
  unfold stripTrail
  have hdw : List.dropWhile isPySpace l.reverse = l.reverse := by
    have := stripLead_of_head h
    simpa [stripLead] using this
  rw [hdw, List.reverse_reverse]

/-- A head that is no space survives trailing strip (or everything is
stripped away). -/
theorem headNotSpace_stripTrail {l : List Char} (h : headNotSpace l = true) :
    headNotSpace (stripTrail l) = true := by
  cases hs : stripTrail l with
  | nil => rfl
  | cons x xs =>
    have hdec := stripTrail_append_takeWhile l
    rw [hs] at hdec
    cases l with
    | nil => simp at hdec
    | cons c rest =>
      have : c = x := by
        have := hdec
        simp only [List.cons_append] at this
        exact (List.cons.injEq .. |>.mp this).1
      subst this
      simpa [headNotSpace] using h

/-- `clean_text` with the form-feed step removed: after collapsing there is
no form feed left. -/
theorem cleanList_eq_strip_collapse (l : List Char) :
    cleanList l = stripBoth (collapseWs l) := by
  unfold cleanList
  rw [replaceFormFeed_of_spacesOk (spacesOk_collapseWs l)]

theorem spacesOk_cleanList (l : List Char) : spacesOk (cleanList l) = true := by
  rw [cleanList_eq_strip_collapse]
  unfold stripBoth
  apply spacesOk_append_left (b := (((stripLead (collapseWs l)).reverse.takeWhile isPySpace)).reverse)
  rw [← stripTrail_append_takeWhile]
  unfold stripLead
  apply spacesOk_append_right (a := (collapseWs l).takeWhile isPySpace)
  rw [List.takeWhile_append_dropWhile]
  exact spacesOk_collapseWs l

theorem headNotSpace_cleanList (l : List Char) :
    headNotSpace (cleanList l) = true := by
  rw [cleanList_eq_strip_collapse]
  exact headNotSpace_stripTrail (headNotSpace_stripLead (collapseWs l))

theorem lastNotSpace_cleanList (l : List Char) :
    lastNotSpace (cleanList l) = true := by
  rw [cleanList_eq_strip_collapse]
  exact lastNotSpace_stripTrail (stripLead (collapseWs l))

/-- Core of claim C7: cleaning already-clean text changes nothing. -/
theorem cleanList_idem (l : List Char) : cleanList (cleanList l) = cleanList l := by
  have hok := spacesOk_cleanList l
  calc cleanList (cleanList l)
      = stripBoth (replaceFormFeed (collapseWs (cleanList l))) := rfl
    _ = stripBoth (cleanList l) := by
        rw [collapseWs_of_spacesOk hok, replaceFormFeed_of_spacesOk hok]
    _ = cleanList l := by
        unfold stripBoth
        rw [stripLead_of_head (headNotSpace_cleanList l),
          stripTrail_of_last (lastNotSpace_cleanList l)]

/-- Last-character facts transfer across a nonempty right append part. -/
theorem lastNotSpace_append {a b : List Char} (hb : b ≠ []) :
    lastNotSpace (a ++ b) = lastNotSpace b := by
  unfold lastNotSpace
  rw [List.reverse_append]
  cases hrb : b.reverse with
  | nil => exact absurd (by simpa using hrb) hb
  | cons x xs => simp [headNotSpace]

/-- A left part satisfying the shape invariant and ending in a non-space
character collapses independently of what follows. -/
theorem collapseWs_append {p : List Char} (hok : spacesOk p = true)
    (hlast : lastNotSpace p = true) (m : List Char) :
    collapseWs (p ++ m) = p ++ collapseWs m := by
  induction p with
  | nil => rfl
  | cons c rest ih =>
    cases rest with
    | nil =>
      have hc : isPySpace c = false := by
        unfold lastNotSpace at hlast
        simpa [headNotSpace] using hlast
      cases m with
      | nil => simp [collapseWs, hc]
      | cons d m2 => simp [List.cons_append, collapseWs_cons_of_not_space _ hc]
    | cons d r2 =>
      have h2 := hok
      simp only [spacesOk, Bool.and_eq_true] at h2
      have htail : lastNotSpace (d :: r2) = true := by
        have heq := lastNotSpace_append (a := [c]) (b := d :: r2) (by simp)
        rw [show [c] ++ (d :: r2) = c :: d :: r2 from rfl] at heq
        rw [← heq]
        exact hlast
      by_cases hc : isPySpace c
      · have hceq : c = ' ' :=
          spacesOk_mem hok (List.mem_cons_self c (d :: r2)) (by simp [hc])
        have hd : isPySpace d = false := by
          have h1 := h2.1
          rw [hc] at h1
          simp only [Bool.not_true, Bool.false_or, Bool.and_eq_true,
            Bool.not_eq_true'] at h1
          exact h1.2
        have hstep : collapseWs (c :: d :: (r2 ++ m)) = ' ' :: collapseWs (d :: (r2 ++ m)) := by
          simp [collapseWs, hc, hd]
        have hih := ih h2.2 htail
        simp only [List.cons_append] at hih ⊢
        rw [hstep, hih, hceq]
      · have hc2 : isPySpace c = false := by simp [hc]
        have hih := ih h2.2 htail
        simp only [List.cons_append] at hih ⊢
        rw [collapseWs_cons_of_not_space (d :: (r2 ++ m)) hc2, hih]

/-- Under the shape invariant the text holds no newline. -/
theorem no_newline_of_spacesOk {l : List Char} (h : spacesOk l = true) :
    '\n' ∉ l := by
  intro hm
  have := spacesOk_mem h hm (by decide)
  cases this

/-- Splitting a newline-free text yields a single line. -/
theorem splitLines_no_newline {t : List Char} (h : '\n' ∉ t) :
    splitLines t = [t] := by
  induction t with
  | nil => rfl
  | cons c rest ih =>
    have hc : ¬ c = '\n' := fun hcc => h (hcc ▸ List.mem_cons_self c rest)
    have hrest : '\n' ∉ rest := fun hm => h (List.mem_cons_of_mem c hm)
    simp only [splitLines, if_neg hc, ih hrest]

/-- `stripBoth` is the identity on text with non-space first and last
characters. -/
theorem stripBoth_of_ends {l : List Char} (hh : headNotSpace l = true)
    (hl : lastNotSpace l = true) : stripBoth l = l := by
  unfold stripBoth
  rw [stripLead_of_head hh, stripTrail_of_last hl]

/-- Cleaned text produces at most one logical line: the dead `lines[:30]`
bound of `extract_title` after normalization. -/
theorem linesOf_cleanList (l : List Char) :
    linesOf (cleanList l) = if cleanList l = [] then [] else [cleanList l] := by
  unfold linesOf
  rw [splitLines_no_newline (no_newline_of_spacesOk (spacesOk_cleanList l))]
  rw [List.map_cons, List.map_nil,
    stripBoth_of_ends (headNotSpace_cleanList l) (lastNotSpace_cleanList l)]
  by_cases h : cleanList l = []
  · simp [h]
  · simp [h, List.isEmpty_iff]

theorem dropWhileAppend (p : Char → Bool) (a b : List Char) :
    (a ++ b).dropWhile p =
      if (a.dropWhile p).isEmpty then b.dropWhile p else a.dropWhile p ++ b := by
  induction a with
  | nil => simp
  | cons x xs ih =>
    by_cases hx : p x
    · simp [List.dropWhile_cons, hx, ih]
    · simp [List.dropWhile_cons, hx]

theorem dropWhile_head_false (p : Char → Bool) :
    ∀ (l : List Char) {c : Char} {cs : List Char},
      l.dropWhile p = c :: cs → p c = false := by
  intro l
  induction l with
  | nil => intro c cs h; cases h
  | cons x xs ih =>
    intro c cs h
    by_cases hx : p x
    · rw [List.dropWhile_cons, if_pos hx] at h
      exact ih h
    · rw [List.dropWhile_cons, if_neg hx] at h
      cases h
      simpa using hx

/-- A left part ending in a non-space character is untouched by trailing
strip of an append. -/
theorem stripTrail_append_of_last {a : List Char} (ha : lastNotSpace a = true)
    (b : List Char) : stripTrail (a ++ b) = a ++ stripTrail b := by
  unfold stripTrail
  rw [List.reverse_append, dropWhileAppend isPySpace b.reverse a.reverse]
  have hda : a.reverse.dropWhile isPySpace = a.reverse := by
    have := stripLead_of_head (l := a.reverse) ha
    simpa [stripLead] using this
  by_cases hb : (b.reverse.dropWhile isPySpace).isEmpty
  · rw [if_pos hb]
    have hbe : b.reverse.dropWhile isPySpace = [] := by
      simpa [List.isEmpty_iff] using hb
    rw [hbe, hda, List.reverse_reverse]
    simp
  · rw [if_neg hb, List.reverse_append, List.reverse_reverse]

theorem extract_title_headings_cons {t : List Char} {h0 : List Char}
    {hs : List (List Char)} (he : headingsOf t = h0 :: hs) (p : Int) :
    extract_title t p =
      if 80 < (List.intercalate " – ".data ((h0 :: hs).take 2)).length
      then (List.intercalate " – ".data ((h0 :: hs).take 2)).take 77 ++ "...".data
      else List.intercalate " – ".data ((h0 :: hs).take 2) := by
  unfold extract_title
  rw [he]

theorem extract_title_no_headings {t : List Char} (he : headingsOf t = [])
    (p : Int) :
    extract_title t p =
      match ((linesOf t).take 20).find?
          (fun l => decide (10 < l.length) && !("CAT".data.isPrefixOf l)) with
      | some l => l.take 80
      | none => (get_section_info p).1.data ++ " – Page ".data
          ++ (toString p).data := by
  unfold extract_title
  rw [he]

/-- Core of claim C9: when the raw text's first line is the sample heading,
the pipeline title starts with that heading, in every branch of
`extract_title`. -/
theorem titlePipeline_hdcas (raw : String) (p : Int)
    (h : firstLineOf raw = hdcasPhrase) :
    hdcasPhrase <+: titlePipeline raw p := by
  have hfl : raw.data.takeWhile (fun c => decide (c ≠ '\n')) = hdcasPhrase := h
  have hsplit : raw.data
      = hdcasPhrase ++ raw.data.dropWhile (fun c => decide (c ≠ '\n')) := by
    rw [← hfl]
    exact (List.takeWhile_append_dropWhile _ _).symm
  cases hr : raw.data.dropWhile (fun c => decide (c ≠ '\n')) with
  | nil =>
    have hraw : raw.data = hdcasPhrase := by rw [hsplit, hr, List.append_nil]
    unfold titlePipeline
    rw [hraw]
    have hcl : cleanList hdcasPhrase = hdcasPhrase := by decide
    rw [hcl]
    have hres : extract_title hdcasPhrase p = hdcasPhrase := rfl
    rw [hres]
  | cons c0 r2 =>
    have hc0 : c0 = '\n' := by
      have := dropWhile_head_false (fun c => decide (c ≠ '\n')) raw.data hr
      simpa using this
    subst hc0
    have hphok : spacesOk hdcasPhrase = true := by decide
    have hphlast : lastNotSpace hdcasPhrase = true := by decide
    have hcoll : collapseWs raw.data = hdcasPhrase ++ collapseWs ('\n' :: r2) := by
      conv_lhs => rw [hsplit, hr]
      exact collapseWs_append hphok hphlast _
    set u := collapseWs ('\n' :: r2) with hu
    set w := stripTrail u with hw
    have hok2 : spacesOk (hdcasPhrase ++ u) = true := by
      rw [← hcoll]
      exact spacesOk_collapseWs _
    have hff : replaceFormFeed (hdcasPhrase ++ u) = hdcasPhrase ++ u :=
      replaceFormFeed_of_spacesOk hok2
    have hhd : headNotSpace (hdcasPhrase ++ u) = true := by
      rw [show hdcasPhrase ++ u
        = 'H' :: ("EAVY DUTY CONCRETE ANCHOR SYSTEM".data ++ u) from rfl]
      simp only [headNotSpace]
      decide
    have hslead : stripLead (hdcasPhrase ++ u) = hdcasPhrase ++ u :=
      stripLead_of_head hhd
    have ht : cleanList raw.data = hdcasPhrase ++ w := by
      unfold cleanList stripBoth
      rw [hcoll, hff, hslead, stripTrail_append_of_last hphlast]
    have htne : cleanList raw.data ≠ [] := by
      rw [ht]
      intro hx
      exact absurd (List.append_eq_nil.mp hx).1 (by decide)
    have hlines : linesOf (cleanList raw.data) = [cleanList raw.data] := by
      rw [linesOf_cleanList raw.data, if_neg htne]
    have hlen33 : hdcasPhrase.length = 33 := by decide
    have hlent : 10 < (cleanList raw.data).length := by
      rw [ht, List.length_append, hlen33]
      omega
    have htake : ∀ n : Nat, 33 ≤ n →
        (cleanList raw.data).take n = hdcasPhrase ++ w.take (n - 33) := by
      intro n hn
      rw [ht, List.take_append_eq_append_take,
        List.take_of_length_le (by rw [hlen33]; exact hn), hlen33]
    unfold titlePipeline
    by_cases hok : headingOk (cleanList raw.data) = true
    · have he : headingsOf (cleanList raw.data) = [cleanList raw.data] := by
        simp [headingsOf, hlines, List.filter_cons, hok]
      rw [extract_title_headings_cons he p]
      have hint : List.intercalate " – ".data ([cleanList raw.data].take 2)
          = cleanList raw.data := by
        simp [List.intercalate]
      rw [hint]
      by_cases h80 : 80 < (cleanList raw.data).length
      · rw [if_pos h80, htake 77 (by omega)]
        exact ⟨w.take 44 ++ "...".data, by simp⟩
      · rw [if_neg h80, ht]
        exact ⟨w, rfl⟩
    · have he : headingsOf (cleanList raw.data) = [] := by
        simp [headingsOf, hlines, List.filter_cons, hok]
      rw [extract_title_no_headings he p]
      have ht20 : (linesOf (cleanList raw.data)).take 20
          = [cleanList raw.data] := by
        rw [hlines]
        simp
      rw [ht20]
      have hnp : "CAT".data.isPrefixOf (cleanList raw.data) = false := by
        have hshape : cleanList raw.data
            = 'H' :: ("EAVY DUTY CONCRETE ANCHOR SYSTEM".data ++ w) := by
          rw [ht]
          rfl
        rw [hshape]
        simp [List.isPrefixOf]
      have hpred : (decide (10 < (cleanList raw.data).length)
          && !("CAT".data.isPrefixOf (cleanList raw.data))) = true := by
        rw [hnp]
        simp [hlent]
      have hfind : List.find?
          (fun l => decide (10 < l.length) && !("CAT".data.isPrefixOf l))
          [cleanList raw.data] = some (cleanList raw.data) := by
        rw [List.find?_cons, hpred]
      rw [hfind]
      show hdcasPhrase <+: (cleanList raw.data).take 80
      rw [htake 80 (by omega)]
      exact ⟨w.take 47, rfl⟩

theorem find?_append_of_none {α : Type} (p : α → Bool) {pre : List α}
    (hpre : ∀ x ∈ pre, p x = false) (l : List α) :
    (pre ++ l).find? p = l.find? p := by
  induction pre with
  | nil => rfl
  | cons x xs ih =>
    rw [List.cons_append, List.find?_cons, hpre x (List.mem_cons_self x xs)]
    exact ih (fun y hy => hpre y (List.mem_cons_of_mem x hy))

theorem lookupGroups_cons (e : String × List Int)
    (rest : List (String × List Int)) (k : String) :
    lookupGroups (e :: rest) k
      = if e.1 = k then e.2 else lookupGroups rest k := by
  unfold lookupGroups
  rw [List.find?_cons]
  by_cases hek : e.1 = k
  · simp [hek]
  · simp [hek]

/-- Lookup after one grouping step: the page lands exactly in its own
section's list. -/
theorem lookupGroups_step (g : List (String × List Int)) (name k : String)
    (p : Int) :
    lookupGroups (sectionGroupsStep g name p) k =
      if name = k then lookupGroups g k ++ [p] else lookupGroups g k := by
  induction g with
  | nil =>
    by_cases hk : name = k
    · simp [sectionGroupsStep, lookupGroups_cons, lookupGroups, hk]
    · simp [sectionGroupsStep, lookupGroups_cons, lookupGroups, hk]
  | cons e rest ih =>
    by_cases he : e.1 = name
    · rw [show sectionGroupsStep (e :: rest) name p
        = (e.1, e.2 ++ [p]) :: rest from by simp [sectionGroupsStep, he]]
      simp only [lookupGroups_cons]
      by_cases hk : name = k
      · have hek : e.1 = k := he.trans hk
        simp only [if_pos hek, if_pos hk]
      · have hek : ¬ e.1 = k := fun hx => hk (he.symm.trans hx)
        simp only [if_neg hek, if_neg hk]
    · rw [show sectionGroupsStep (e :: rest) name p
        = e :: sectionGroupsStep rest name p from by simp [sectionGroupsStep, he]]
      simp only [lookupGroups_cons]
      by_cases hek : e.1 = k
      · have hk : ¬ name = k := fun hx => he (hek.trans hx.symm)
        simp only [if_pos hek, if_neg hk]
      · simp only [if_neg hek]
        exact ih

/-- The grouping fold of `main` computes, for every key, exactly the pages
resolving to that key, in input order. -/
theorem lookupGroups_fold (inputs : List (Int × String)) :
    ∀ (g : List (String × List Int)) (k : String),
      lookupGroups
        (inputs.foldl
          (fun g2 pr => sectionGroupsStep g2 (get_section_info pr.1).1 pr.1) g) k
      = lookupGroups g k
        ++ (inputs.filter (fun q => decide ((get_section_info q.1).1 = k))).map
            Prod.fst := by
  induction inputs with
  | nil => intro g k; simp
  | cons q rest ih =>
    intro g k
    rw [List.foldl_cons, ih, lookupGroups_step]
    by_cases hq : (get_section_info q.1).1 = k
    · rw [if_pos hq, List.filter_cons, if_pos (by simpa using hq)]
      simp
    · rw [if_neg hq, List.filter_cons, if_neg (by simpa using hq)]

theorem lookupGroups_runGroups (inputs : List (Int × String)) (k : String) :
    lookupGroups (runGroups inputs) k
      = (inputs.filter (fun q => decide ((get_section_info q.1).1 = k))).map
          Prod.fst := by
  unfold runGroups
  rw [lookupGroups_fold inputs [] k]
  rfl

theorem lexLe_total (a b : List Char) : lexLe a b = true ∨ lexLe b a = true := by
  induction a generalizing b with
  | nil => left; rfl
  | cons x xs ih =>
    cases b with
    | nil => right; rfl
    | cons y ys =>
      rcases lt_trichotomy x y with h | h | h
      · left; simp [lexLe, h]
      · subst h
        rcases ih ys with h2 | h2
        · left; simp [lexLe, h2]
        · right; simp [lexLe, h2]
      · right; simp [lexLe, h, asymm h, (ne_of_lt h).symm]

theorem lexLe_trans {a b c : List Char} (h1 : lexLe a b = true)
    (h2 : lexLe b c = true) : lexLe a c = true := by
  induction a generalizing b c with
  | nil => rfl
  | cons x xs ih =>
    cases b with
    | nil => simp [lexLe] at h1
    | cons y ys =>
      cases c with
      | nil => simp [lexLe] at h2
      | cons z zs =>
        simp only [lexLe] at h1 h2 ⊢
        rcases lt_trichotomy x y with hxy | hxy | hxy
        · rcases lt_trichotomy y z with hyz | hyz | hyz
          · simp [lt_trans hxy hyz]
          · subst hyz; simp [hxy]
          · simp [hyz, asymm hyz, (ne_of_lt hyz).symm] at h2
        · subst hxy
          rcases lt_trichotomy x z with hxz | hxz | hxz
          · simp [hxz]
          · subst hxz
            simp only [lt_irrefl, if_false, if_pos rfl] at h1 h2 ⊢
            exact ih h1 h2
          · simp [hxz, asymm hxz, (ne_of_lt hxz).symm] at h2
        · simp [hxy, asymm hxy, (ne_of_lt hxy).symm] at h1

theorem mem_setAdd {acc : List (List Char)} {x y : List Char}
    (h : y ∈ setAdd acc x) : y ∈ acc ∨ y = x := by
  unfold setAdd at h
  by_cases hx : x ∈ acc
  · rw [if_pos hx] at h; exact Or.inl h
  · rw [if_neg hx] at h
    rcases List.mem_append.mp h with h2 | h2
    · exact Or.inl h2
    · exact Or.inr (List.mem_singleton.mp h2)

theorem nodup_setAdd {acc : List (List Char)} (h : acc.Nodup)
    (x : List Char) : (setAdd acc x).Nodup := by
  unfold setAdd
  by_cases hx : x ∈ acc
  · rw [if_pos hx]; exact h
  · rw [if_neg hx]
    exact List.Nodup.append h (List.nodup_singleton x)
      (by simpa [List.disjoint_singleton] using hx)

theorem nodup_foldl_setAdd (l : List (List Char)) :
    ∀ acc : List (List Char), acc.Nodup → (l.foldl setAdd acc).Nodup := by
  induction l with
  | nil => intro acc h; exact h
  | cons x xs ih => intro acc h; exact ih (setAdd acc x) (nodup_setAdd h x)

theorem mem_foldl_setAdd2 (l : List (List Char)) :
    ∀ (acc : List (List Char)) (y : List Char),
      y ∈ l.foldl setAdd acc → y ∈ acc ∨ y ∈ l := by
  induction l with
  | nil => intro acc y h; exact Or.inl h
  | cons x xs ih =>
    intro acc y h
    rcases ih (setAdd acc x) y h with h2 | h2
    · rcases mem_setAdd h2 with h3 | h3
      · exact Or.inl h3
      · exact Or.inr (h3 ▸ List.mem_cons_self x xs)
    · exact Or.inr (List.mem_cons_of_mem x h2)

/-- The vocabulary fold only ever adds vocabulary terms. -/
theorem vocabFold_facts (terms : List (List Char)) (textLower : List Char) :
    ∀ (acc : List (List Char)),
      (acc.Nodup → (terms.foldl
        (fun a term => if containsSub term textLower then setAdd a term else a)
        acc).Nodup)
      ∧ ∀ y, y ∈ terms.foldl
          (fun a term => if containsSub term textLower then setAdd a term else a)
          acc → y ∈ acc ∨ y ∈ terms := by
  induction terms with
  | nil => intro acc; exact ⟨fun h => h, fun y h => Or.inl h⟩
  | cons t ts ih =>
    intro acc
    constructor
    · intro hnd
      rw [List.foldl_cons]
      by_cases hc : containsSub t textLower
      · rw [if_pos hc]
        exact (ih (setAdd acc t)).1 (nodup_setAdd hnd t)
      · rw [if_neg hc]
        exact (ih acc).1 hnd
    · intro y hy
      rw [List.foldl_cons] at hy
      by_cases hc : containsSub t textLower
      · rw [if_pos hc] at hy
        rcases (ih (setAdd acc t)).2 y hy with h2 | h2
        · rcases mem_setAdd h2 with h3 | h3
          · exact Or.inl h3
          · exact Or.inr (h3 ▸ List.mem_cons_self t ts)
        · exact Or.inr (List.mem_cons_of_mem t h2)
      · rw [if_neg hc] at hy
        rcases (ih acc).2 y hy with h2 | h2
        · exact Or.inl h2
        · exact Or.inr (List.mem_cons_of_mem t h2)

/-- The product fold adds only (up to three) words of some product. -/
theorem productFold_facts (products : List (List Char)) :
    ∀ (acc : List (List Char)),
      (acc.Nodup → (products.foldl
        (fun a pr => ((lowerWords (toLowerList pr)).take 3).foldl setAdd a)
        acc).Nodup)
      ∧ ∀ y, y ∈ products.foldl
          (fun a pr => ((lowerWords (toLowerList pr)).take 3).foldl setAdd a)
          acc →
        y ∈ acc ∨ ∃ pr ∈ products, y ∈ lowerWords (toLowerList pr) := by
  induction products with
  | nil => intro acc; exact ⟨fun h => h, fun y h => Or.inl h⟩
  | cons pr prs ih =>
    intro acc
    constructor
    · intro hnd
      rw [List.foldl_cons]
      exact (ih _).1 (nodup_foldl_setAdd _ acc hnd)
    · intro y hy
      rw [List.foldl_cons] at hy
      rcases (ih _).2 y hy with h2 | h2
      · rcases mem_foldl_setAdd2 _ _ _ h2 with h3 | h3
        · exact Or.inl h3
        · refine Or.inr ⟨pr, List.mem_cons_self pr prs, ?_⟩
          exact List.mem_of_mem_take h3
      · rcases h2 with ⟨pr2, hpr2, hw⟩
        exact Or.inr ⟨pr2, List.mem_cons_of_mem pr hpr2, hw⟩

/-- Every accumulated keyword candidate list is duplicate-free. -/
theorem nodup_keywordCandidates (t title : List Char)
    (products : List (List Char)) : (keywordCandidates t title products).Nodup := by
  unfold keywordCandidates
  apply (productFold_facts products _).1
  apply nodup_foldl_setAdd
  exact (vocabFold_facts common_terms (toLowerList t) []).1 List.nodup_nil

/-- Every keyword candidate is a vocabulary term, a title word, or a
product word. -/
theorem mem_keywordCandidates {t title : List Char}
    {products : List (List Char)} {y : List Char}
    (h : y ∈ keywordCandidates t title products) :
    y ∈ common_terms
    ∨ y ∈ lowerWords (toLowerList title)
    ∨ ∃ pr ∈ products, y ∈ lowerWords (toLowerList pr) := by
  unfold keywordCandidates at h
  rcases (productFold_facts products _).2 y h with h2 | h2
  · rcases mem_foldl_setAdd2 _ _ _ h2 with h3 | h3
    · rcases (vocabFold_facts common_terms (toLowerList t) []).2 y h3 with h4 | h4
      · cases h4
      · exact Or.inl h4
    · exact Or.inr (Or.inl (List.mem_of_mem_filter h3))
  · exact Or.inr (Or.inr h2)

/-- A lowercase ASCII letter is not an uppercase letter. -/
theorem isLowerAlpha_not_upper {c : Char} (h : isLowerAlpha c = true) :
    c.isUpper = false := by
  simp only [isLowerAlpha, Bool.and_eq_true, decide_eq_true_eq] at h
  have h1 : ('a').val ≤ c.val := h.1
  have h90 : ¬ (c.val ≤ (90 : UInt32)) := by
    intro hle
    exact absurd (UInt32.le_trans h1 hle) (by decide)
  simp [Char.isUpper, decide_eq_false h90]

/-- Words surviving the `[a-z]{4,}` filter hold lowercase letters only. -/
theorem lowerWords_chars {l w : List Char} (h : w ∈ lowerWords l) :
    ∀ c ∈ w, isLowerAlpha c = true := by
  unfold lowerWords at h
  have := (List.mem_filter.mp h).2
  simp only [Bool.and_eq_true, List.all_eq_true] at this
  exact this.2

theorem nodup_processMatch {acc : List (List Char)} (h : acc.Nodup)
    (m : List Char) : (processMatch acc m).Nodup := by
  unfold processMatch
  by_cases h1 : 4 < (stripBoth m).length ∧ (stripBoth m).length < 60
  · rw [if_pos h1]
    by_cases h2 : collapseWs (stripBoth m) ∈ acc
    · rw [if_pos h2]; exact h
    · rw [if_neg h2]
      exact List.Nodup.append h (List.nodup_singleton _)
        (by simpa [List.disjoint_singleton] using h2)
  · rw [if_neg h1]; exact h

theorem nodup_foldl_processMatch (ms : List (List Char)) :
    ∀ acc : List (List Char), acc.Nodup → (ms.foldl processMatch acc).Nodup := by
  induction ms with
  | nil => intro acc h; exact h
  | cons m ms2 ih => intro acc h; exact ih _ (nodup_processMatch h m)

theorem nodup_productLineStep {acc : List (List Char)} (h : acc.Nodup)
    (line : List Char) : (productLineStep acc line).Nodup := by
  unfold productLineStep
  by_cases h1 : (stripBoth line).isEmpty || (stripBoth line).length < 4
  · rw [if_pos h1]; exact h
  · rw [if_neg h1]
    by_cases h2 : productSkipMarkers.any
        (fun mk => containsSub mk (toUpperList (stripBoth line))) = true
    · rw [if_pos h2]; exact h
    · rw [if_neg h2]
      exact nodup_foldl_processMatch _ acc h

theorem nodup_foldl_productLineStep (lines : List (List Char)) :
    ∀ acc : List (List Char), acc.Nodup →
      (lines.foldl productLineStep acc).Nodup := by
  induction lines with
  | nil => intro acc h; exact h
  | cons l ls ih => intro acc h; exact ih _ (nodup_productLineStep h l)

/-- C1: the claim says the pipeline (normalization, then title extraction)
determines heading candidates from the first 30 logical lines of the raw
text, each line qualifying on its own content.  The code normalizes first,
which collapses every newline, so the heading test sees a single merged
line: here the raw first line qualifies as a heading on its own, yet the
pipeline finds no heading at all and falls back to the first 80 characters
of the merged text.  The last conjunct shows the `lines[:30]` bound is dead
after normalization: there is never more than one line. -/
theorem c1_heading_lines_bug :
    headingOk (firstLineOf "HEAVY DUTY SYSTEM\naaaa aaaa aaaa aaaa aaaa aaaa") = true
    ∧ headingsOf (cleanList "HEAVY DUTY SYSTEM\naaaa aaaa aaaa aaaa aaaa aaaa".data) = []
    ∧ titlePipeline "HEAVY DUTY SYSTEM\naaaa aaaa aaaa aaaa aaaa aaaa" 5
        = "HEAVY DUTY SYSTEM aaaa aaaa aaaa aaaa aaaa aaaa".data
    ∧ titlePipeline "HEAVY DUTY SYSTEM\naaaa aaaa aaaa aaaa aaaa aaaa" 5
        ≠ "HEAVY DUTY SYSTEM".data
    ∧ ∀ s : String, (linesOf (cleanList s.data)).length ≤ 1 := by
  refine ⟨by decide, by decide, by decide, by decide, ?_⟩
  intro s
  rw [linesOf_cleanList s.data]
  by_cases h : cleanList s.data = []
  · rw [if_pos h]
    simp
  · rw [if_neg h]
    simp

/-- C2: `get_section_info` scans the fixed ordered table and returns the
first range whose inclusive bounds contain the page; at each range's start
and end it returns that range's display name, and out-of-domain pages give
the sentinel pair without any error. -/
theorem c2_section_resolution :
    (∀ r ∈ SECTION_MAPPING,
      get_section_info r.2.1 = (displayName r.1, pageRangeGroup r.2.1)
      ∧ get_section_info r.2.2 = (displayName r.1, pageRangeGroup r.2.2))
    ∧ (∀ p : Int, (∀ r ∈ SECTION_MAPPING, ¬ (r.2.1 ≤ p ∧ p ≤ r.2.2)) →
        get_section_info p = ("Unknown", "Unknown"))
    ∧ (∀ (p : Int) (pre : List (String × Int × Int)) (r : String × Int × Int)
        (post : List (String × Int × Int)),
        SECTION_MAPPING = pre ++ r :: post →
        (∀ q ∈ pre, ¬ (q.2.1 ≤ p ∧ p ≤ q.2.2)) →
        r.2.1 ≤ p → p ≤ r.2.2 →
        get_section_info p = (displayName r.1, pageRangeGroup p)) := by
  refine ⟨by decide, ?_, ?_⟩
  · intro p h
    unfold get_section_info
    have hnone : SECTION_MAPPING.find?
        (fun r => decide (r.2.1 ≤ p) && decide (p ≤ r.2.2)) = none := by
      apply List.find?_eq_none.mpr
      intro x hx
      simp only [Bool.and_eq_true, decide_eq_true_eq]
      exact fun hc => h x hx hc
    rw [hnone]
  · intro p pre r post htab hpre h1 h2
    have hf : ∀ q ∈ pre,
        (fun r0 : String × Int × Int =>
          decide (r0.2.1 ≤ p) && decide (p ≤ r0.2.2)) q = false := by
      intro q hq
      have h3 := hpre q hq
      by_cases ha : q.2.1 ≤ p
      · have hb : ¬ p ≤ q.2.2 := fun hb => h3 ⟨ha, hb⟩
        simp [ha, hb]
      · simp [ha]
    have hpr : (decide (r.2.1 ≤ p) && decide (p ≤ r.2.2)) = true := by
      simp [h1, h2]
    unfold get_section_info
    rw [htab, find?_append_of_none _ hf, List.find?_cons, hpr]

/-- Witness for C2 at concrete pages: the boundary page 74 starts the
second range, and page 300 lies outside every range. -/
theorem c2_section_resolution_witness :
    get_section_info 74 = ("Fastening Systems", "Pages 70–79")
    ∧ get_section_info 300 = ("Unknown", "Unknown") :=
  ⟨(c2_section_resolution.1 ("Fastening_Systems", 74, 91) (by decide)).1,
   c2_section_resolution.2.1 300 (by decide)⟩

/-- C3 counterexample: the claim says a line containing `BOX` contributes
no products, but `extract_products` skips on `SIZE`, not `BOX`, so a line
containing `BOX` produces products. -/
theorem c3_box_line_counterexample :
    containsSub "BOX".data (toUpperList (stripBoth "NAILBOX SYSTEMS".data)) = true
    ∧ extract_products "NAILBOX SYSTEMS".data
        = ["NAILBOX SYSTEMS".data, "NAILBOX".data, "SYSTEMS".data]
    ∧ extract_products "NAILBOX SYSTEMS".data ≠ [] := by
  exact ⟨by decide, by decide, by decide⟩

/-- C3 amended: `extract_products` skips a line exactly on the markers
CAT #, PART NO, SKU, DESCRIPTION, QTY, SIZE; the set differs from
`extract_title`'s, which has BOX in place of SIZE, so a SIZE line yields no
products while it can still qualify as a heading, and a BOX line is skipped
only by the heading test. -/
theorem c3_product_header_markers (line : List Char) (acc : List (List Char))
    (h : productSkipMarkers.any
      (fun mk => containsSub mk (toUpperList (stripBoth line))) = true) :
    productLineStep acc line = acc
    ∧ productSkipMarkers = ["CAT #".data, "PART NO".data, "SKU".data,
        "DESCRIPTION".data, "QTY".data, "SIZE".data]
    ∧ titleSkipMarkers = ["CAT #".data, "PART NO".data, "SKU".data,
        "DESCRIPTION".data, "QTY".data, "BOX".data]
    ∧ extract_products "BIG SIZE TOOLS".data = []
    ∧ headingOk "BIG SIZE TOOLS".data = true
    ∧ headingOk "NAILBOX SYSTEMS".data = false := by
  refine ⟨?_, by decide, by decide, by decide, by decide, by decide⟩
  unfold productLineStep
  by_cases h1 : (stripBoth line).isEmpty || (stripBoth line).length < 4
  · rw [if_pos h1]
  · rw [if_neg h1, if_pos h]

/-- Witness for the amended C3 at a concrete SIZE-marked line. -/
theorem c3_product_header_markers_witness :
    productLineStep [] "ODD SIZE GEAR".data = [] :=
  (c3_product_header_markers "ODD SIZE GEAR".data [] (by decide)).1

/-- C4: keyword output is sorted ascending, duplicate-free, capped at 15,
and equals the 15 lexicographically smallest members of the full keyword
set: its length is the min of 15 and the set size, every member comes from
the set, and every excluded set member is at least every included one. -/
theorem c4_keywords_sorted_capped (t title : List Char)
    (products : List (List Char)) :
    List.Sorted lexR (extract_keywords t title products)
    ∧ (extract_keywords t title products).Nodup
    ∧ (extract_keywords t title products).length ≤ 15
    ∧ (extract_keywords t title products).length
        = min 15 (keywordCandidates t title products).length
    ∧ (∀ y ∈ extract_keywords t title products,
        y ∈ keywordCandidates t title products)
    ∧ ∀ x ∈ keywordCandidates t title products,
        x ∉ extract_keywords t title products →
        ∀ y ∈ extract_keywords t title products, lexR y x := by
  haveI hT : IsTotal (List Char) lexR := ⟨lexLe_total⟩
  haveI hTr : IsTrans (List Char) lexR := ⟨fun a b c => lexLe_trans⟩
  have hsorted : List.Sorted lexR
      (List.insertionSort lexR (keywordCandidates t title products)) :=
    List.sorted_insertionSort lexR _
  have hperm : List.Perm
      (List.insertionSort lexR (keywordCandidates t title products))
      (keywordCandidates t title products) :=
    List.perm_insertionSort lexR _
  have hkw : extract_keywords t title products
      = (List.insertionSort lexR (keywordCandidates t title products)).take 15 :=
    rfl
  refine ⟨?_, ?_, ?_, ?_, ?_, ?_⟩
  · rw [hkw]
    exact List.Pairwise.sublist (List.take_sublist _ _) hsorted
  · rw [hkw]
    exact List.Nodup.sublist (List.take_sublist _ _)
      (hperm.nodup_iff.mpr (nodup_keywordCandidates t title products))
  · rw [hkw, List.length_take]
    exact min_le_left _ _
  · rw [hkw, List.length_take, hperm.length_eq]
  · intro y hy
    rw [hkw] at hy
    exact hperm.mem_iff.mp (List.mem_of_mem_take hy)
  · intro x hx hnx y hy
    rw [hkw] at hnx hy
    have hxs : x ∈ List.insertionSort lexR (keywordCandidates t title products) :=
      hperm.mem_iff.mpr hx
    have hxsplit : x ∈ (List.insertionSort lexR
          (keywordCandidates t title products)).take 15
        ++ (List.insertionSort lexR (keywordCandidates t title products)).drop 15 := by
      rw [List.take_append_drop]
      exact hxs
    have hxd : x ∈ (List.insertionSort lexR
        (keywordCandidates t title products)).drop 15 := by
      rcases List.mem_append.mp hxsplit with h2 | h2
      · exact absurd h2 hnx
      · exact h2
    have hsort2 : List.Pairwise lexR
        ((List.insertionSort lexR (keywordCandidates t title products)).take 15
          ++ (List.insertionSort lexR (keywordCandidates t title products)).drop 15) := by
      rw [List.take_append_drop]
      exact hsorted
    exact (List.pairwise_append.mp hsort2).2.2 y hy x hxd

/-- Witness for C4 at a text holding 16 vocabulary terms: `wrench` is in the
keyword set but not among the 15 returned, and is bounded below by the
returned keyword `anchor`. -/
theorem c4_keywords_sorted_capped_witness :
    "wrench".data ∈ keywordCandidates
      "drill saw nailer hammer wrench pliers screwdriver anchor fastener bolt screw nail pin rivet cordless electric".data
      [] []
    ∧ lexR "anchor".data "wrench".data :=
  ⟨by decide,
   (c4_keywords_sorted_capped
      "drill saw nailer hammer wrench pliers screwdriver anchor fastener bolt screw nail pin rivet cordless electric".data
      [] []).2.2.2.2.2 "wrench".data (by decide) (by decide)
      "anchor".data (by decide)⟩

/-- C5: the product extractor returns at most 10 entries, and no entry
repeats under exact string equality, for every input text. -/
theorem c5_products_capped_nodup (t : List Char) :
    (extract_products t).length ≤ 10 ∧ (extract_products t).Nodup := by
  constructor
  · unfold extract_products
    rw [List.length_take]
    exact min_le_left _ _
  · unfold extract_products
    exact List.Nodup.sublist (List.take_sublist _ _)
      (nodup_foldl_productLineStep _ [] List.nodup_nil)

/-- C6: with empty raw text and page 10 the pipeline still produces a full
record: empty products, the bare summary, keywords drawn only from the
fallback title's tokens, and the section/page sentinel title. -/
theorem c6_empty_text_defaults :
    process_pdf "" 10 =
      { page := 10
        sectionName := "Fastener Anchoring Systems"
        rangeGroup := "Pages 10–19"
        title := "Fastener Anchoring Systems – Page 10".data
        products := []
        keywords := ["anchoring".data, "fastener".data, "systems".data]
        summary := "This page includes product information.".data } := by
  decide

/-- C7: `clean_text` is idempotent for every input string. -/
theorem c7_normalize_idempotent (x : String) :
    clean_text (clean_text x) = clean_text x :=
  congrArg String.mk (cleanList_idem x.data)

/-- C8: for every run the finalized section index has exactly one entry per
fixed section, in table order, each with its range string; sections with no
matched pages get an empty list; no `Unknown` entry ever appears; and each
entry's pages are exactly the processed pages resolving to that section. -/
theorem c8_section_index_shape (inputs : List (Int × String)) :
    (section_index inputs).map Prod.fst
      = ["Fastener Anchoring Systems", "Fastening Systems",
         "Material Handling Storage", "Hand Tools", "Measuring Marking",
         "Ladders", "Cleaning Supplies", "Jobsite Supplies",
         "Building Materials", "Adhesives Caulks",
         "Power Tools Equipment Accessories", "Safety Equipment Supplies"]
    ∧ "Unknown" ∉ (section_index inputs).map Prod.fst
    ∧ (section_index inputs).map (fun e => e.2.1)
      = ["3–73", "74–91", "92–99", "100–119", "120–131", "132–134",
         "135–143", "144–171", "172–184", "185–188", "189–246", "247–298"]
    ∧ ((section_index inputs).map Prod.fst).Nodup
    ∧ ∀ e ∈ section_index inputs,
        e.2.2 = (inputs.filter
          (fun q => decide ((get_section_info q.1).1 = e.1))).map Prod.fst := by
  have hm1 : (section_index inputs).map Prod.fst
      = ["Fastener Anchoring Systems", "Fastening Systems",
         "Material Handling Storage", "Hand Tools", "Measuring Marking",
         "Ladders", "Cleaning Supplies", "Jobsite Supplies",
         "Building Materials", "Adhesives Caulks",
         "Power Tools Equipment Accessories", "Safety Equipment Supplies"] := rfl
  refine ⟨hm1, ?_, rfl, ?_, ?_⟩
  · rw [hm1]
    decide
  · rw [hm1]
    decide
  · intro e he
    unfold section_index at he
    rcases List.mem_map.mp he with ⟨r, hr, rfl⟩
    exact lookupGroups_runGroups inputs (displayName r.1)

/-- Witness for C8 on a two-page run where the second page is unmapped. -/
theorem c8_section_index_shape_witness :
    "Unknown" ∉ (section_index [((10 : Int), "a"), ((500 : Int), "b")]).map Prod.fst
    ∧ (("Fastener Anchoring Systems", "3–73", ([10] : List Int))
        : String × String × List Int).2.2
      = ([((10 : Int), "a"), ((500 : Int), "b")].filter
          (fun q => decide ((get_section_info q.1).1
            = ("Fastener Anchoring Systems", "3–73", ([10] : List Int)).1))).map
          Prod.fst :=
  ⟨(c8_section_index_shape _).2.1,
   (c8_section_index_shape [((10 : Int), "a"), ((500 : Int), "b")]).2.2.2.2
     ("Fastener Anchoring Systems", "3–73", [10]) (by decide)⟩

/-- C9: whenever the raw text's first line is the sample heading, the
pipeline title contains that phrase, whether the heading rule or a fallback
produced it. -/
theorem c9_first_line_heading_in_title (raw : String) (p : Int)
    (h : firstLineOf raw = hdcasPhrase) :
    hdcasPhrase <:+: titlePipeline raw p := by
  rcases titlePipeline_hdcas raw p h with ⟨tail2, htail⟩
  exact ⟨[], tail2, by simpa using htail⟩

/-- Witness for C9 on a raw text whose second line defeats the heading rule
(the merged line contains the marker QTY), exercising the fallback. -/
theorem c9_first_line_heading_in_title_witness :
    firstLineOf "HEAVY DUTY CONCRETE ANCHOR SYSTEM\nqty box 123" = hdcasPhrase
    ∧ hdcasPhrase <:+:
        titlePipeline "HEAVY DUTY CONCRETE ANCHOR SYSTEM\nqty box 123" 7 :=
  ⟨by decide,
   c9_first_line_heading_in_title "HEAVY DUTY CONCRETE ANCHOR SYSTEM\nqty box 123"
     7 (by decide)⟩

/-- C10: every string the keyword extractor returns holds no uppercase
letter: vocabulary terms are stored lowercase and title and product tokens
are lowercase-alphabetic words matched against lowercased text. -/
theorem c10_keywords_lowercase (t title : List Char)
    (products : List (List Char)) :
    ∀ w ∈ extract_keywords t title products, ∀ c ∈ w, c.isUpper = false := by
  intro w hw c hc
  have hw1 : w ∈ List.insertionSort lexR (keywordCandidates t title products) :=
    List.mem_of_mem_take hw
  have hw2 : w ∈ keywordCandidates t title products :=
    (List.perm_insertionSort lexR _).mem_iff.mp hw1
  rcases mem_keywordCandidates hw2 with h | h | ⟨pr, _, h⟩
  · have hvocab : ∀ w2 ∈ common_terms, ∀ c2 ∈ w2, c2.isUpper = false := by decide
    exact hvocab w h c hc
  · exact isLowerAlpha_not_upper (lowerWords_chars h c hc)
  · exact isLowerAlpha_not_upper (lowerWords_chars h c hc)

/-- Witness for C10 on the empty-page keyword list, at the keyword
`anchoring` produced from an uppercase-initial title. -/
theorem c10_keywords_lowercase_witness :
    "anchoring".data ∈ extract_keywords []
      "Fastener Anchoring Systems – Page 10".data []
    ∧ ('a').isUpper = false :=
  ⟨by decide,
   c10_keywords_lowercase [] "Fastener Anchoring Systems – Page 10".data []
     "anchoring".data (by decide) 'a' (by decide)⟩

end Catalog
